import Mathlib

/-!
Verification of the queue_of_matchmaking repository.

The repository ships client-side exerciser scripts
(`scripts/assert_add_request.py`, `scripts/gql_mutation.py`,
`scripts/gql_subscription.py`, `queue_of_matchmaking/scripts/gql_mutation.py`).
The matchmaking engine itself (RequestPool, Matcher, NotificationHub,
MatchEngine) is not part of the sources; it is modelled here from the spec.
The pure helpers of the scripts (`load_players`, `concurrency_limit`) are
embedded directly from the source.
-/

namespace QueueOfMatchmaking

/-! ### Embedding of `concurrency_limit` (src/scripts/gql_subscription.py) -/

/-- Codepoints CPython's integer parser strips as surrounding whitespace
(Py_UNICODE_ISSPACE, Unicode 14.0.0). -/
def pySpaceCodes : List UInt32 :=
  [0x9, 0xa, 0xb, 0xc, 0xd, 0x1c, 0x1d, 0x1e, 0x1f, 0x20, 0x85, 0xa0, 0x1680,
   0x2000, 0x2001, 0x2002, 0x2003, 0x2004, 0x2005, 0x2006, 0x2007, 0x2008,
   0x2009, 0x200a, 0x2028, 0x2029, 0x202f, 0x205f, 0x3000]

/-- Whether Python's `int()` strips `c` as whitespace. -/
def pyIsSpace (c : Char) : Bool := pySpaceCodes.contains c.val

/-- Start codepoints of the contiguous ten-character runs of Unicode
characters with Numeric_Type=Decimal (Unicode 14.0.0). Python's `int()`
accepts exactly these characters as digits — ASCII `0`-`9` (run start 48),
Arabic-Indic `٠`-`٩` (1632), fullwidth `０`-`９` (65296), and the other
decimal-digit blocks — each with value equal to its offset in the run. -/
def pyDigitStarts : List Nat :=
  [48, 1632, 1776, 1984, 2406, 2534, 2662, 2790, 2918, 3046, 3174, 3302,
   3430, 3558, 3664, 3792, 3872, 4160, 4240, 6112, 6160, 6470, 6608, 6784,
   6800, 6992, 7088, 7232, 7248, 42528, 43216, 43264, 43472, 43504, 43600,
   44016, 65296, 66720, 68912, 69734, 69872, 69942, 70096, 70384, 70736,
   70864, 71248, 71360, 71472, 71904, 72016, 72784, 73040, 73120, 92768,
   92864, 93008, 120782, 120792, 120802, 120812, 120822, 123200, 123632,
   125264, 130032]

/-- Decimal value of a character under Python's `int()`, or `none` when the
character is not a decimal digit. -/
def pyDigitVal (c : Char) : Option Nat :=
  (pyDigitStarts.find? (fun s => s ≤ c.toNat && c.toNat < s + 10)).map
    (fun s => c.toNat - s)

/-- Value of the digit part after its first digit. Python allows single
underscores only between digits: `1_000` parses, while `1__0`, `1_` and
`_1` all raise `ValueError`. -/
def pyDigitRun (acc : Nat) : List Char → Option Nat
  | [] => some acc
  | '_' :: c :: rest =>
    match pyDigitVal c with
    | some d => pyDigitRun (acc * 10 + d) rest
    | none => none
  | '_' :: [] => none
  | c :: rest =>
    match pyDigitVal c with
    | some d => pyDigitRun (acc * 10 + d) rest
    | none => none

/-- Value of a complete digit part: at least one digit, underscores only
between digits. -/
def pyDigitsVal : List Char → Option Nat
  | [] => none
  | c :: rest =>
    match pyDigitVal c with
    | some d => pyDigitRun d rest
    | none => none

/-- Python `int(raw)` on a base-10 string: surrounding whitespace is
stripped, then an optional sign, then a non-empty digit part (any Unicode
decimal digits, single underscores allowed between digits). Returns `none`
where Python raises `ValueError`. -/
def pyIntOfString (s : String) : Option Int :=
  let cs := ((s.toList.dropWhile pyIsSpace).reverse.dropWhile pyIsSpace).reverse
  match cs with
  | '-' :: rest => (pyDigitsVal rest).map (fun n => -(n : Int))
  | '+' :: rest => (pyDigitsVal rest).map (fun n => (n : Int))
  | cs => (pyDigitsVal cs).map (fun n => (n : Int))

/-- Embedding of `concurrency_limit()` from src/scripts/gql_subscription.py.
The environment is passed explicitly: `env` is the value of the
`QUEUE_MATCHMAKING_SUBSCRIPTION_CONCURRENCY` variable, `none` when unset.
`Except.error` models a raised `ValueError`. -/
def concurrency_limit (env : Option String) : Except String Int :=
  let raw := env.getD "50"
  match pyIntOfString raw with
  | none =>
      Except.error ("QUEUE_MATCHMAKING_SUBSCRIPTION_CONCURRENCY must be an integer, got " ++ raw)
  | some value =>
      if value ≤ 0 then
        Except.error ("QUEUE_MATCHMAKING_SUBSCRIPTION_CONCURRENCY must be > 0, got " ++ raw)
      else Except.ok value

/-! ### Embedding of `load_players` (src/scripts/gql_mutation.py) -/

/-- Loop body of `load_players`: `idx` is the 1-based row index maintained by
`enumerate(reader, start=1)`; a row is skipped when `parity == "odd"` and the
index is even, or `parity == "even"` and the index is odd. -/
def load_playersAux (parity : String) : Nat → List (String × Int) → List (String × Int)
  | _, [] => []
  | idx, row :: rest =>
    if parity = "odd" ∧ idx % 2 = 0 then load_playersAux parity (idx + 1) rest
    else if parity = "even" ∧ idx % 2 = 1 then load_playersAux parity (idx + 1) rest
    else row :: load_playersAux parity (idx + 1) rest

/-- Embedding of `load_players(parity)` from src/scripts/gql_mutation.py.
The CSV file is passed explicitly as the list of its rows, a row being the
`(userId, int(rank))` pair the generator yields. -/
def load_players (parity : String) (rows : List (String × Int)) : List (String × Int) :=
  load_playersAux parity 1 rows

mutual

/-- Elements of a list at odd 1-based positions (positions 1, 3, 5, …). -/
def oddSel : List (String × Int) → List (String × Int)
  | [] => []
  | x :: rest => x :: evenSel rest

/-- Elements of a list at even 1-based positions (positions 2, 4, 6, …). -/
def evenSel : List (String × Int) → List (String × Int)
  | [] => []
  | _ :: rest => oddSel rest

end

lemma load_playersAux_odd (rows : List (String × Int)) :
    ∀ idx, load_playersAux "odd" idx rows =
      if idx % 2 = 1 then oddSel rows else evenSel rows := by
  induction rows with
  | nil => intro idx; cases Nat.mod_two_eq_zero_or_one idx with
    | inl h => simp [load_playersAux, oddSel, evenSel, h]
    | inr h => simp [load_playersAux, oddSel, evenSel, h]
  | cons row rest ih =>
    intro idx
    cases Nat.mod_two_eq_zero_or_one idx with
    | inl h =>
      have h1 : (idx + 1) % 2 = 1 := by omega
      simp [load_playersAux, h, ih, h1, evenSel]
    | inr h =>
      have h1 : (idx + 1) % 2 = 0 := by omega
      simp [load_playersAux, h, ih, h1, oddSel]

lemma load_playersAux_even (rows : List (String × Int)) :
    ∀ idx, load_playersAux "even" idx rows =
      if idx % 2 = 1 then evenSel rows else oddSel rows := by
  induction rows with
  | nil => intro idx; cases Nat.mod_two_eq_zero_or_one idx with
    | inl h => simp [load_playersAux, oddSel, evenSel, h]
    | inr h => simp [load_playersAux, oddSel, evenSel, h]
  | cons row rest ih =>
    intro idx
    cases Nat.mod_two_eq_zero_or_one idx with
    | inl h =>
      have h1 : (idx + 1) % 2 = 1 := by omega
      simp [load_playersAux, h, ih, h1, oddSel]
    | inr h =>
      have h1 : (idx + 1) % 2 = 0 := by omega
      simp [load_playersAux, h, ih, h1, evenSel]

lemma sel_getElem? (rows : List (String × Int)) :
    ∀ i : Nat, (oddSel rows)[i]? = rows[2 * i]? ∧ (evenSel rows)[i]? = rows[2 * i + 1]? := by
  induction rows with
  | nil => intro i; simp [oddSel, evenSel]
  | cons x rest ih =>
    intro i
    constructor
    · cases i with
      | zero => simp [oddSel]
      | succ j =>
        have h2 : 2 * (j + 1) = 2 * j + 1 + 1 := by omega
        simp only [oddSel, List.getElem?_cons_succ, h2]
        exact (ih j).2
    · have h2 : 2 * i + 1 = 2 * i + 1 := rfl
      simp only [evenSel, List.getElem?_cons_succ]
      exact (ih i).1

lemma sel_append_perm (rows : List (String × Int)) :
    (oddSel rows ++ evenSel rows).Perm rows := by
  induction rows with
  | nil => simp [oddSel, evenSel]
  | cons x rest ih =>
    simp only [oddSel, evenSel, List.cons_append]
    exact (List.Perm.cons x ((List.perm_append_comm).trans ih))

lemma sel_sublist (rows : List (String × Int)) :
    List.Sublist (oddSel rows) rows ∧ List.Sublist (evenSel rows) rows := by
  induction rows with
  | nil => simp [oddSel, evenSel]
  | cons x rest ih =>
    refine ⟨?_, ?_⟩
    · simpa [oddSel] using List.Sublist.cons₂ x ih.2
    · simpa [evenSel] using List.Sublist.cons x ih.1

/-- C9: `load_players "odd"` yields exactly the rows at odd 1-based positions
and `load_players "even"` exactly those at even 1-based positions; the two
selections are order-preserving sublists, disjoint as positions, and together
yield every row exactly once (their concatenation is a permutation of the
rows). -/
theorem load_players_parity_partition (rows : List (String × Int)) :
    load_players "odd" rows = oddSel rows
  ∧ load_players "even" rows = evenSel rows
  ∧ (∀ i : Nat, (oddSel rows)[i]? = rows[2 * i]?)
  ∧ (∀ i : Nat, (evenSel rows)[i]? = rows[2 * i + 1]?)
  ∧ (load_players "odd" rows ++ load_players "even" rows).Perm rows
  ∧ List.Sublist (load_players "odd" rows) rows
  ∧ List.Sublist (load_players "even" rows) rows := by
  have hodd : load_players "odd" rows = oddSel rows := by
    simp [load_players, load_playersAux_odd]
  have heven : load_players "even" rows = evenSel rows := by
    simp [load_players, load_playersAux_even]
  refine ⟨hodd, heven, fun i => (sel_getElem? rows i).1, fun i => (sel_getElem? rows i).2,
    ?_, ?_, ?_⟩
  · rw [hodd, heven]; exact sel_append_perm rows
  · rw [hodd]; exact (sel_sublist rows).1
  · rw [heven]; exact (sel_sublist rows).2

/-- C10: `concurrency_limit` returns 50 when the environment variable is
unset; when set, it returns the parsed integer exactly when the value parses
and is strictly positive, and raises `ValueError` otherwise (non-integer
text, zero, or negative). -/
theorem concurrency_limit_spec :
    concurrency_limit none = Except.ok 50
  ∧ (∀ (s : String) (v : Int),
      concurrency_limit (some s) = Except.ok v ↔ (pyIntOfString s = some v ∧ 0 < v))
  ∧ (∀ s : String,
      (pyIntOfString s = none ∨ ∃ v, pyIntOfString s = some v ∧ v ≤ 0) →
      ∃ msg, concurrency_limit (some s) = Except.error msg) := by
  refine ⟨rfl, ?_, ?_⟩
  · intro s v
    simp only [concurrency_limit, Option.getD]
    cases h : pyIntOfString s with
    | none => simp
    | some w =>
      by_cases hw : w ≤ 0
      · simp only [hw, if_pos]
        constructor
        · intro hcontra; cases hcontra
        · rintro ⟨hsw, hv⟩
          injection hsw with hsw
          omega
      · simp only [hw, if_neg, not_false_iff]
        constructor
        · intro hok
          injection hok with hok
          exact ⟨by rw [hok], by omega⟩
        · rintro ⟨hsw, _⟩
          injection hsw with hsw
          rw [hsw]
  · intro s h
    simp only [concurrency_limit, Option.getD]
    rcases h with h | ⟨v, hv, hvle⟩
    · rw [h]; exact ⟨_, rfl⟩
    · rw [hv]; simp only [hvle, if_pos]; exact ⟨_, rfl⟩

/-- Witness for C10 at concrete inputs: default 50 when unset; the values
" 42" (surrounding whitespace), "1_000" (underscore separator) and "٤٢"
(Arabic-Indic digits) parse and succeed exactly as Python's `int()` does;
the value "0" is rejected. -/
theorem concurrency_limit_spec_witness :
    concurrency_limit none = Except.ok 50
  ∧ concurrency_limit (some " 42") = Except.ok 42
  ∧ concurrency_limit (some "1_000") = Except.ok 1000
  ∧ concurrency_limit (some "٤٢") = Except.ok 42
  ∧ (∃ msg, concurrency_limit (some "0") = Except.error msg) :=
  ⟨concurrency_limit_spec.1,
   (concurrency_limit_spec.2.1 " 42" 42).mpr ⟨by decide, by decide⟩,
   (concurrency_limit_spec.2.1 "1_000" 1000).mpr ⟨by decide, by decide⟩,
   (concurrency_limit_spec.2.1 "٤٢" 42).mpr ⟨by decide, by decide⟩,
   concurrency_limit_spec.2.2 "0" (Or.inr ⟨0, by decide, by decide⟩)⟩

/-! ### Spec-modelled matchmaking engine

The engine (RequestPool, Matcher, NotificationHub, MatchEngine) is not part
of the repository sources; the scripts only exercise it over GraphQL. All
definitions below are modelled from the spec (sections 2-5). -/

/-- Modelled from the spec: a pending Request `{userId, rank, enqueuedAt}`
(spec section 3), owned by the RequestPool while pending. -/
structure Request where
  userId : String
  rank : Int
  enqueuedAt : Nat
deriving DecidableEq

/-- Modelled from the spec: a MatchResult `{users: ordered pair of
{userId, rank}, delta}` (spec section 3); `userA`/`rankA` come from the older
request of the pair. -/
structure MatchResult where
  userA : String
  rankA : Int
  userB : String
  rankB : Int
  delta : Nat
deriving DecidableEq

/-- Whether `u` is one of the two matched participants. -/
def MatchResult.hasUser (r : MatchResult) (u : String) : Bool :=
  r.userA == u || r.userB == u

/-- The two participants of a result, in order. -/
def MatchResult.userIds (r : MatchResult) : List String := [r.userA, r.userB]

/-- Absolute rank difference of two requests. -/
def deltaOf (p q : Request) : Nat := (p.rank - q.rank).natAbs

/-- Modelled from the spec: the default tolerance curve. The spec leaves the
exact growth curve injectable (section 9); the default is linear with
`tolerance 0 = 0` (zero wait tolerates zero delta), monotonically
non-decreasing and unbounded. -/
def defaultTolerance (wait : Nat) : Nat := wait

/-- Modelled from the spec: requests `p`, `q` are compatible when
`|rank p − rank q| ≤ tolerance (max (wait p) (wait q))` (spec section 4.2). -/
def compatible (tol : Nat → Nat) (now : Nat) (p q : Request) : Bool :=
  deltaOf p q ≤ tol (max (now - p.enqueuedAt) (now - q.enqueuedAt))

/-- Fold step of the candidate search: keep `c` when it is compatible with
the head `h` and strictly improves on the delta of the candidate held so
far. -/
def pickBetter (tol : Nat → Nat) (now : Nat) (h : Request)
    (acc : Option Request) (c : Request) : Option Request :=
  if compatible tol now h c then
    match acc with
    | none => some c
    | some b => if deltaOf h c < deltaOf h b then some c else acc
  else acc

/-- Modelled from the spec: among the candidates in `rest` compatible with
the head request `h`, pick the one with minimum delta (the first of the
minima), spec section 4.2. -/
def bestCandidate (tol : Nat → Nat) (now : Nat) (h : Request) (rest : List Request) :
    Option Request :=
  rest.foldl (pickBetter tol now h) none

/-- MatchResult built from a matched pair (spec section 4.2): both
userIds/ranks and `delta = |rankA − rankB|`. -/
def mkMatch (p q : Request) : MatchResult :=
  { userA := p.userId, rankA := p.rank, userB := q.userId, rankB := q.rank,
    delta := deltaOf p q }

/-- Modelled from the spec: one Matcher sweep (spec section 4.2): scan the
pool oldest first; pair the head with its minimum-delta compatible candidate
and remove both atomically, or leave the head pending and move on. `fuel`
bounds the recursion; `sweep` supplies the pool length, which always
suffices. Returns the remaining pool and the produced MatchResults. -/
def sweepAux (tol : Nat → Nat) (now : Nat) :
    Nat → List Request → List Request × List MatchResult
  | 0, pool => (pool, [])
  | _ + 1, [] => ([], [])
  | fuel + 1, h :: rest =>
    match bestCandidate tol now h rest with
    | none =>
      let pr := sweepAux tol now fuel rest
      (h :: pr.1, pr.2)
    | some c =>
      let pr := sweepAux tol now fuel (rest.erase c)
      (pr.1, mkMatch h c :: pr.2)

/-- Matcher sweep over a pool. -/
def sweep (tol : Nat → Nat) (now : Nat) (pool : List Request) :
    List Request × List MatchResult :=
  sweepAux tol now pool.length pool

/-- Result of the `addRequest` operation: `{ok, error}`. -/
structure AddResponse where
  ok : Bool
  error : Option String
deriving DecidableEq

/-- Modelled from the spec: the MatchEngine state — a logical clock, the
RequestPool (insertion-ordered), and the NotificationHub buffer of all
produced MatchResults. -/
structure EngineState where
  now : Nat
  pool : List Request
  results : List MatchResult
deriving DecidableEq

/-- The freshly constructed engine: empty pool, no results. -/
def initState : EngineState := { now := 0, pool := [], results := [] }

/-- Modelled from the spec: run a Matcher sweep and hand the produced
results to the NotificationHub buffer. -/
def runSweep (tol : Nat → Nat) (s : EngineState) : EngineState :=
  let pr := sweep tol s.now s.pool
  { s with pool := pr.1, results := s.results ++ pr.2 }

/-- Modelled from the spec: `AddRequest` (spec sections 4.1, 4.4): atomic
check-and-insert; a duplicate pending userId is rejected with
`already_enqueued` and the pool left unmodified; a fresh userId is appended
(insertion order preserved) and a Matcher sweep is triggered. The logical
clock advances by one per call. -/
def addRequest (tol : Nat → Nat) (s : EngineState) (u : String) (rank : Int) :
    AddResponse × EngineState :=
  let s1 : EngineState := { s with now := s.now + 1 }
  if s1.pool.any (fun q => q.userId == u) then
    ({ ok := false, error := some "already_enqueued" }, s1)
  else
    ({ ok := true, error := none },
      runSweep tol { s1 with pool := s1.pool ++ [⟨u, rank, s1.now⟩] })

/-- Modelled from the spec: the periodic tick (spec section 4.2): time
advances and the Matcher re-evaluates the pool under the widened
tolerance. -/
def tick (tol : Nat → Nat) (s : EngineState) : EngineState :=
  runSweep tol { s with now := s.now + 1 }

/-- External events driving the engine. -/
inductive Step where
  | add (u : String) (rank : Int)
  | tick
deriving DecidableEq

/-- One engine transition. -/
def applyStep (tol : Nat → Nat) (s : EngineState) : Step → EngineState
  | Step.add u rank => (addRequest tol s u rank).2
  | Step.tick => tick tol s

/-- Execution of the engine from a state through a trace of events. -/
def runFrom (tol : Nat → Nat) (s : EngineState) (trace : List Step) : EngineState :=
  trace.foldl (applyStep tol) s

/-- Execution of the engine from the initial state. -/
def run (tol : Nat → Nat) (trace : List Step) : EngineState :=
  runFrom tol initState trace

/-- Modelled from the spec: NotificationHub delivery (spec section 4.3): a
subscription for `u` is one-shot; it emits the buffered MatchResult for `u`
when one exists (subscribe-after-match included) and stays pending, emitting
nothing yet, otherwise. -/
def subscribeEmissions (s : EngineState) (u : String) : List MatchResult :=
  match s.results.find? (fun r => r.hasUser u) with
  | some r => [r]
  | none => []

/-- The userId enqueued by a step, if any. -/
def addedUser : Step → Option String
  | Step.add u _ => some u
  | Step.tick => none

/-! ### Properties of the candidate search and of one sweep -/

lemma foldl_pickBetter_spec (tol : Nat → Nat) (now : Nat) (h : Request) :
    ∀ (rest : List Request) (acc : Option Request),
      rest.foldl (pickBetter tol now h) acc = acc ∨
      ∃ c ∈ rest, rest.foldl (pickBetter tol now h) acc = some c ∧
        compatible tol now h c = true := by
  intro rest
  induction rest with
  | nil => intro acc; exact Or.inl rfl
  | cons c rest ih =>
    intro acc
    simp only [List.foldl_cons]
    rcases ih (pickBetter tol now h acc c) with heq | ⟨d, hd, heq, hcomp⟩
    · rw [heq]
      by_cases hc : compatible tol now h c = true
      · cases acc with
        | none =>
          exact Or.inr ⟨c, List.mem_cons_self c rest, by simp [pickBetter, hc], hc⟩
        | some b =>
          by_cases hlt : deltaOf h c < deltaOf h b
          · exact Or.inr ⟨c, List.mem_cons_self c rest, by simp [pickBetter, hc, hlt], hc⟩
          · exact Or.inl (by simp [pickBetter, hc, hlt])
      · exact Or.inl (by simp [pickBetter, hc])
    · exact Or.inr ⟨d, List.mem_cons_of_mem c hd, heq, hcomp⟩

lemma bestCandidate_some (tol : Nat → Nat) (now : Nat) (h : Request)
    (rest : List Request) (c : Request)
    (hbc : bestCandidate tol now h rest = some c) :
    c ∈ rest ∧ compatible tol now h c = true := by
  rcases foldl_pickBetter_spec tol now h rest none with heq | ⟨d, hd, heq, hcomp⟩
  · rw [bestCandidate, heq] at hbc; cases hbc
  · rw [bestCandidate, heq] at hbc
    injection hbc with h'
    subst h'
    exact ⟨hd, hcomp⟩

lemma sweepAux_results_spec (tol : Nat → Nat) (now : Nat) :
    ∀ (fuel : Nat) (pool : List Request),
      ∀ r ∈ (sweepAux tol now fuel pool).2,
        ∃ p ∈ pool, ∃ q ∈ pool, r = mkMatch p q ∧ compatible tol now p q = true := by
  intro fuel
  induction fuel with
  | zero => intro pool r hr; simp [sweepAux] at hr
  | succ fuel ih =>
    intro pool r hr
    cases pool with
    | nil => simp [sweepAux] at hr
    | cons hd rest =>
      rw [sweepAux] at hr
      cases hbc : bestCandidate tol now hd rest with
      | none =>
        rw [hbc] at hr
        simp only [] at hr
        obtain ⟨p, hp, q, hq, hrm, hcomp⟩ := ih rest r hr
        exact ⟨p, List.mem_cons_of_mem hd hp, q, List.mem_cons_of_mem hd hq, hrm, hcomp⟩
      | some c =>
        rw [hbc] at hr
        simp only [List.mem_cons] at hr
        rcases hr with rfl | hr
        · obtain ⟨hc, hcomp⟩ := bestCandidate_some tol now hd rest c hbc
          exact ⟨hd, List.mem_cons_self hd rest, c, List.mem_cons_of_mem hd hc, rfl, hcomp⟩
        · obtain ⟨p, hp, q, hq, hrm, hcomp⟩ := ih (rest.erase c) r hr
          exact ⟨p, List.mem_cons_of_mem hd (List.mem_of_mem_erase hp), q,
            List.mem_cons_of_mem hd (List.mem_of_mem_erase hq), hrm, hcomp⟩

lemma sweepAux_ids_perm (tol : Nat → Nat) (now : Nat) :
    ∀ (fuel : Nat) (pool : List Request),
      ((sweepAux tol now fuel pool).1.map Request.userId ++
        (sweepAux tol now fuel pool).2.flatMap MatchResult.userIds).Perm
        (pool.map Request.userId) := by
  intro fuel
  induction fuel with
  | zero => intro pool; simp [sweepAux]
  | succ fuel ih =>
    intro pool
    cases pool with
    | nil => simp [sweepAux]
    | cons hd rest =>
      rw [sweepAux]
      cases hbc : bestCandidate tol now hd rest with
      | none =>
        simpa using (ih rest).cons hd.userId
      | some c =>
        have hc : c ∈ rest := (bestCandidate_some tol now hd rest c hbc).1
        have hperm1 : (rest.map Request.userId).Perm
            (c.userId :: (rest.erase c).map Request.userId) := by
          simpa using (List.perm_cons_erase hc).map Request.userId
        simp only [List.map_cons, List.flatMap_cons, MatchResult.userIds, mkMatch,
          List.cons_append, List.nil_append]
        refine List.Perm.trans List.perm_append_comm ?_
        simp only [List.cons_append]
        refine ((List.perm_append_comm.trans (ih (rest.erase c))).cons c.userId).cons
          hd.userId |>.trans ?_
        exact (hperm1.symm.cons hd.userId)

lemma sweep_ids_perm (tol : Nat → Nat) (now : Nat) (pool : List Request) :
    ((sweep tol now pool).1.map Request.userId ++
      (sweep tol now pool).2.flatMap MatchResult.userIds).Perm
      (pool.map Request.userId) :=
  sweepAux_ids_perm tol now pool.length pool

lemma sweep_count (tol : Nat → Nat) (now : Nat) (pool : List Request) (u : String) :
    List.count u ((sweep tol now pool).1.map Request.userId) +
      List.count u ((sweep tol now pool).2.flatMap MatchResult.userIds) =
      List.count u (pool.map Request.userId) := by
  have h := (sweep_ids_perm tol now pool).count_eq u
  simpa [List.count_append] using h

lemma sweep_pool_nodup (tol : Nat → Nat) (now : Nat) (pool : List Request)
    (h : (pool.map Request.userId).Nodup) :
    ((sweep tol now pool).1.map Request.userId).Nodup :=
  List.Nodup.of_append_left ((sweep_ids_perm tol now pool).nodup_iff.mpr h)

lemma sweepAux_results_distinct (tol : Nat → Nat) (now : Nat) :
    ∀ (fuel : Nat) (pool : List Request), (pool.map Request.userId).Nodup →
      ∀ r ∈ (sweepAux tol now fuel pool).2, r.userA ≠ r.userB := by
  intro fuel
  induction fuel with
  | zero => intro pool _ r hr; simp [sweepAux] at hr
  | succ fuel ih =>
    intro pool hnd r hr
    cases pool with
    | nil => simp [sweepAux] at hr
    | cons hd rest =>
      rw [sweepAux] at hr
      rw [List.map_cons, List.nodup_cons] at hnd
      cases hbc : bestCandidate tol now hd rest with
      | none =>
        rw [hbc] at hr
        simp only [] at hr
        exact ih rest hnd.2 r hr
      | some c =>
        rw [hbc] at hr
        simp only [List.mem_cons] at hr
        rcases hr with rfl | hr
        · have hc : c ∈ rest := (bestCandidate_some tol now hd rest c hbc).1
          simp only [mkMatch, ne_eq]
          intro heq
          exact hnd.1 (heq ▸ List.mem_map_of_mem Request.userId hc)
        · exact ih (rest.erase c)
            ((List.Sublist.map Request.userId (List.erase_sublist c rest)).nodup hnd.2) r hr

lemma sweepAux_delta (tol : Nat → Nat) (now : Nat) (fuel : Nat) (pool : List Request) :
    ∀ r ∈ (sweepAux tol now fuel pool).2, r.delta = (r.rankA - r.rankB).natAbs := by
  intro r hr
  obtain ⟨p, _, q, _, rfl, _⟩ := sweepAux_results_spec tol now fuel pool r hr
  rfl

/-! ### Trace-level invariants of the engine -/

/-- userIds currently pending in the pool. -/
def poolIds (s : EngineState) : List String := s.pool.map Request.userId

/-- userIds over all produced MatchResults, with multiplicity. -/
def resultIds (s : EngineState) : List String := s.results.flatMap MatchResult.userIds

/-- userIds enqueued by a trace, with multiplicity (duplicate-rejected calls
included: rejections only lower the left side of the counting bound). -/
def addsOf (trace : List Step) : List String := trace.filterMap addedUser

lemma addRequest_eq_dup (tol : Nat → Nat) (s : EngineState) (u : String) (rank : Int)
    (h : s.pool.any (fun q => q.userId == u) = true) :
    addRequest tol s u rank =
      ({ ok := false, error := some "already_enqueued" }, { s with now := s.now + 1 }) := by
  simp only [addRequest]
  rw [if_pos h]

lemma addRequest_eq_fresh (tol : Nat → Nat) (s : EngineState) (u : String) (rank : Int)
    (h : s.pool.any (fun q => q.userId == u) = false) :
    addRequest tol s u rank =
      ({ ok := true, error := none },
        runSweep tol { now := s.now + 1,
                       pool := s.pool ++ [⟨u, rank, s.now + 1⟩],
                       results := s.results }) := by
  simp only [addRequest]
  rw [if_neg (by simp [h])]

lemma applyStep_count (tol : Nat → Nat) (s : EngineState) (e : Step) (u : String) :
    List.count u (poolIds (applyStep tol s e)) +
      List.count u (resultIds (applyStep tol s e)) ≤
    List.count u (poolIds s) + List.count u (resultIds s) +
      List.count u (addsOf [e]) := by
  cases e with
  | tick =>
    have hsw := sweep_count tol (s.now + 1) s.pool u
    simp only [applyStep, tick, runSweep, poolIds, resultIds, addsOf, addedUser,
      List.filterMap, List.flatMap_append, List.count_append]
    omega
  | add v rank =>
    cases hdup : s.pool.any (fun q => q.userId == v) with
    | true =>
      simp only [applyStep, addRequest_eq_dup tol s v rank hdup, poolIds, resultIds]
      omega
    | false =>
      have hsw := sweep_count tol (s.now + 1) (s.pool ++ [⟨v, rank, s.now + 1⟩]) u
      simp only [List.map_append, List.count_append, List.map_cons, List.map_nil,
        List.count_cons, List.count_nil] at hsw
      simp only [applyStep, addRequest_eq_fresh tol s v rank hdup, runSweep,
        poolIds, resultIds, addsOf, addedUser, List.filterMap_cons, List.filterMap_nil,
        List.flatMap_append, List.count_append, List.count_cons, List.count_nil]
      omega

lemma runFrom_count (tol : Nat → Nat) (u : String) :
    ∀ (trace : List Step) (s : EngineState),
      List.count u (poolIds (runFrom tol s trace)) +
        List.count u (resultIds (runFrom tol s trace)) ≤
      List.count u (poolIds s) + List.count u (resultIds s) +
        List.count u (addsOf trace) := by
  intro trace
  induction trace with
  | nil => intro s; simp [runFrom, addsOf, List.filterMap]
  | cons e tr ih =>
    intro s
    have h1 := applyStep_count tol s e u
    have h2 := ih (applyStep tol s e)
    have hstep : runFrom tol s (e :: tr) = runFrom tol (applyStep tol s e) tr := rfl
    have hsplit : addsOf (e :: tr) = addsOf [e] ++ addsOf tr := by
      cases e <;> simp [addsOf, addedUser, List.filterMap_cons]
    rw [hstep]
    rw [hsplit] at *
    simp only [List.count_append] at *
    omega

lemma applyStep_inv (tol : Nat → Nat) (s : EngineState) (e : Step)
    (hnd : (poolIds s).Nodup) (hself : ∀ r ∈ s.results, r.userA ≠ r.userB) :
    (poolIds (applyStep tol s e)).Nodup ∧
      ∀ r ∈ (applyStep tol s e).results, r.userA ≠ r.userB := by
  cases e with
  | tick =>
    refine ⟨sweep_pool_nodup tol (s.now + 1) s.pool hnd, ?_⟩
    intro r hr
    rcases List.mem_append.1 hr with h | h
    · exact hself r h
    · exact sweepAux_results_distinct tol (s.now + 1) s.pool.length s.pool hnd r h
  | add v rank =>
    by_cases hdup : ({ s with now := s.now + 1 } : EngineState).pool.any
        (fun q => q.userId == v) = true
    · simpa only [applyStep, addRequest, hdup, if_pos] using ⟨hnd, hself⟩
    · have hnotin : v ∉ poolIds s := by
        intro hmem
        apply hdup
        simp only [List.any_eq_true]
        obtain ⟨q, hq, hqv⟩ := List.mem_map.1 hmem
        exact ⟨q, hq, by simp [hqv]⟩
      have hnd1 : ((s.pool ++ [(⟨v, rank, s.now + 1⟩ : Request)]).map Request.userId).Nodup := by
        simp only [List.map_append, List.map_cons, List.map_nil, List.nodup_append]
        exact ⟨hnd, List.nodup_singleton v, by
          intro a ha hb
          simp only [List.mem_singleton] at hb
          exact hnotin (hb ▸ ha)⟩
      refine ⟨?_, ?_⟩
      · simpa only [applyStep, addRequest, hdup, if_neg, not_false_iff, runSweep, poolIds]
          using sweep_pool_nodup tol (s.now + 1) _ hnd1
      · intro r hr
        simp only [applyStep, addRequest, hdup, if_neg, not_false_iff, runSweep] at hr
        rcases List.mem_append.1 hr with h | h
        · exact hself r h
        · exact sweepAux_results_distinct tol (s.now + 1) _ _ hnd1 r h

lemma runFrom_inv (tol : Nat → Nat) :
    ∀ (trace : List Step) (s : EngineState),
      (poolIds s).Nodup → (∀ r ∈ s.results, r.userA ≠ r.userB) →
      (poolIds (runFrom tol s trace)).Nodup ∧
        ∀ r ∈ (runFrom tol s trace).results, r.userA ≠ r.userB := by
  intro trace
  induction trace with
  | nil => intro s h1 h2; exact ⟨h1, h2⟩
  | cons e tr ih =>
    intro s h1 h2
    have hstep := applyStep_inv tol s e h1 h2
    exact ih (applyStep tol s e) hstep.1 hstep.2

lemma applyStep_delta (tol : Nat → Nat) (s : EngineState) (e : Step)
    (h : ∀ r ∈ s.results, r.delta = (r.rankA - r.rankB).natAbs) :
    ∀ r ∈ (applyStep tol s e).results, r.delta = (r.rankA - r.rankB).natAbs := by
  cases e with
  | tick =>
    intro r hr
    rcases List.mem_append.1 hr with hm | hm
    · exact h r hm
    · exact sweepAux_delta tol (s.now + 1) _ _ r hm
  | add v rank =>
    by_cases hdup : ({ s with now := s.now + 1 } : EngineState).pool.any
        (fun q => q.userId == v) = true
    · simpa only [applyStep, addRequest, hdup, if_pos] using h
    · intro r hr
      simp only [applyStep, addRequest, hdup, if_neg, not_false_iff, runSweep] at hr
      rcases List.mem_append.1 hr with hm | hm
      · exact h r hm
      · exact sweepAux_delta tol (s.now + 1) _ _ r hm

lemma runFrom_delta (tol : Nat → Nat) :
    ∀ (trace : List Step) (s : EngineState),
      (∀ r ∈ s.results, r.delta = (r.rankA - r.rankB).natAbs) →
      ∀ r ∈ (runFrom tol s trace).results, r.delta = (r.rankA - r.rankB).natAbs := by
  intro trace
  induction trace with
  | nil => intro s h; exact h
  | cons e tr ih => intro s h; exact ih (applyStep tol s e) (applyStep_delta tol s e h)

lemma applyStep_results_append (tol : Nat → Nat) (s : EngineState) (e : Step) :
    ∃ ex, (applyStep tol s e).results = s.results ++ ex := by
  cases e with
  | tick => exact ⟨(sweep tol (s.now + 1) s.pool).2, rfl⟩
  | add v rank =>
    cases hdup : s.pool.any (fun q => q.userId == v) with
    | true =>
      refine ⟨[], ?_⟩
      simp [applyStep, addRequest_eq_dup tol s v rank hdup]
    | false =>
      refine ⟨(sweep tol (s.now + 1) (s.pool ++ [⟨v, rank, s.now + 1⟩])).2, ?_⟩
      simp [applyStep, addRequest_eq_fresh tol s v rank hdup, runSweep]

lemma runFrom_results_append (tol : Nat → Nat) :
    ∀ (trace : List Step) (s : EngineState),
      ∃ ex, (runFrom tol s trace).results = s.results ++ ex := by
  intro trace
  induction trace with
  | nil => intro s; exact ⟨[], by simp [runFrom]⟩
  | cons e tr ih =>
    intro s
    obtain ⟨ex1, h1⟩ := applyStep_results_append tol s e
    obtain ⟨ex2, h2⟩ := ih (applyStep tol s e)
    exact ⟨ex1 ++ ex2, by
      rw [show runFrom tol s (e :: tr) = runFrom tol (applyStep tol s e) tr from rfl,
        h2, h1, List.append_assoc]⟩

/-! ### Immediate pairing of mutually compatible enqueues -/

/-- Trace of `addRequest` calls for a list of `(userId, rank)` players. -/
def mkTrace (users : List (String × Int)) : List Step :=
  users.map (fun p => Step.add p.1 p.2)

/-- MatchResults expected when consecutive enqueues pair up immediately. -/
def pairsOf : List (String × Int) → List MatchResult
  | x :: y :: rest =>
    { userA := x.1, rankA := x.2, userB := y.1, rankB := y.2,
      delta := (x.2 - y.2).natAbs } :: pairsOf rest
  | _ => []

lemma runFrom_cons (tol : Nat → Nat) (s : EngineState) (e : Step) (tr : List Step) :
    runFrom tol s (e :: tr) = runFrom tol (applyStep tol s e) tr := rfl

lemma sweep_singleton (tol : Nat → Nat) (now : Nat) (r : Request) :
    sweep tol now [r] = ([r], []) := rfl

lemma sweep_pair (tol : Nat → Nat) (now : Nat) (a b : Request) :
    sweep tol now [a, b] =
      if compatible tol now a b = true then ([], [mkMatch a b]) else ([a, b], []) := by
  by_cases hc : compatible tol now a b = true
  · rw [if_pos hc]
    show sweepAux tol now 2 [a, b] = ([], [mkMatch a b])
    rw [sweepAux]
    have hbc : bestCandidate tol now a [b] = some b := by
      simp [bestCandidate, pickBetter, hc]
    rw [hbc]
    simp [List.erase_cons_head, sweepAux]
  · rw [if_neg hc]
    show sweepAux tol now 2 [a, b] = ([a, b], [])
    rw [sweepAux]
    have hbc : bestCandidate tol now a [b] = none := by
      simp [bestCandidate, pickBetter, hc]
    rw [hbc]
    rfl

lemma addRequest_empty_pool (tol : Nat → Nat) (n : Nat) (rs : List MatchResult)
    (u : String) (rank : Int) :
    addRequest tol ⟨n, [], rs⟩ u rank =
      (⟨true, none⟩, ⟨n + 1, [⟨u, rank, n + 1⟩], rs⟩) := by
  rw [addRequest_eq_fresh tol ⟨n, [], rs⟩ u rank (by simp)]
  simp [runSweep, sweep_singleton]

lemma run_pairs (tol : Nat → Nat) (hmono : Monotone tol) :
    ∀ (k : Nat) (users : List (String × Int)), users.length ≤ k →
      (users.map Prod.fst).Nodup → users.length % 2 = 0 →
      (∀ p ∈ users, ∀ q ∈ users, (p.2 - q.2).natAbs ≤ tol 0) →
      ∀ (n : Nat) (rs : List MatchResult),
        runFrom tol ⟨n, [], rs⟩ (mkTrace users) =
          ⟨n + users.length, [], rs ++ pairsOf users⟩ := by
  intro k
  induction k with
  | zero =>
    intro users hlen _ _ _ n rs
    have husers : users = [] := List.length_eq_zero.1 (Nat.le_zero.1 hlen)
    subst husers
    simp [mkTrace, runFrom, pairsOf]
  | succ k ih =>
    intro users hlen hnd heven hcompat n rs
    cases users with
    | nil => simp [mkTrace, runFrom, pairsOf]
    | cons x t =>
      cases t with
      | nil => simp at heven
      | cons y rest =>
        have hxy : (x.1 == y.1) = false := by
          rw [List.map_cons, List.map_cons, List.nodup_cons] at hnd
          have : x.1 ≠ y.1 := fun h => hnd.1 (h ▸ List.mem_cons_self y.1 _)
          exact beq_eq_false_iff_ne.2 this
        have step1 :
            runFrom tol ⟨n, [], rs⟩ (mkTrace (x :: y :: rest)) =
              runFrom tol ⟨n + 1, [⟨x.1, x.2, n + 1⟩], rs⟩ (mkTrace (y :: rest)) := by
          rw [show mkTrace (x :: y :: rest) = Step.add x.1 x.2 :: mkTrace (y :: rest) from rfl,
            runFrom_cons]
          rw [show applyStep tol ⟨n, [], rs⟩ (Step.add x.1 x.2) =
            (addRequest tol ⟨n, [], rs⟩ x.1 x.2).2 from rfl]
          rw [addRequest_empty_pool]
        have hcomp : compatible tol (n + 2)
            (⟨x.1, x.2, n + 1⟩ : Request) (⟨y.1, y.2, n + 2⟩ : Request) = true := by
          simp only [compatible, deltaOf, decide_eq_true_eq]
          exact le_trans
            (hcompat x (List.mem_cons_self x _) y (List.mem_cons_of_mem x (List.mem_cons_self y _)))
            (hmono (Nat.zero_le _))
        have step2 :
            applyStep tol ⟨n + 1, [⟨x.1, x.2, n + 1⟩], rs⟩ (Step.add y.1 y.2) =
              ⟨n + 2, [], rs ++ [mkMatch ⟨x.1, x.2, n + 1⟩ ⟨y.1, y.2, n + 2⟩]⟩ := by
          rw [show applyStep tol ⟨n + 1, [⟨x.1, x.2, n + 1⟩], rs⟩ (Step.add y.1 y.2) =
            (addRequest tol ⟨n + 1, [⟨x.1, x.2, n + 1⟩], rs⟩ y.1 y.2).2 from rfl]
          rw [addRequest_eq_fresh tol _ y.1 y.2 (by simp [hxy])]
          simp only [runSweep]
          rw [show ((⟨n + 1, [⟨x.1, x.2, n + 1⟩], rs⟩ : EngineState).pool ++
            [(⟨y.1, y.2, n + 2⟩ : Request)]) = [⟨x.1, x.2, n + 1⟩, ⟨y.1, y.2, n + 2⟩] from rfl]
          rw [show (⟨n + 1, [⟨x.1, x.2, n + 1⟩], rs⟩ : EngineState).now + 1 = n + 2 from rfl]
          rw [sweep_pair, if_pos hcomp]
        have hlen' : rest.length ≤ k := by
          simp only [List.length_cons] at hlen
          omega
        have hnd' : (rest.map Prod.fst).Nodup := by
          rw [List.map_cons, List.map_cons, List.nodup_cons, List.nodup_cons] at hnd
          exact hnd.2.2
        have heven' : rest.length % 2 = 0 := by
          simp only [List.length_cons] at heven
          omega
        have hcompat' : ∀ p ∈ rest, ∀ q ∈ rest, (p.2 - q.2).natAbs ≤ tol 0 := by
          intro p hp q hq
          exact hcompat p (List.mem_cons_of_mem x (List.mem_cons_of_mem y hp))
            q (List.mem_cons_of_mem x (List.mem_cons_of_mem y hq))
        rw [step1]
        rw [show mkTrace (y :: rest) = Step.add y.1 y.2 :: mkTrace rest from rfl, runFrom_cons]
        rw [step2]
        rw [ih rest hlen' hnd' heven' hcompat' (n + 2) (rs ++ [mkMatch ⟨x.1, x.2, n + 1⟩ ⟨y.1, y.2, n + 2⟩])]
        have hpairs : pairsOf (x :: y :: rest) =
            mkMatch (⟨x.1, x.2, n + 1⟩ : Request) (⟨y.1, y.2, n + 2⟩ : Request) :: pairsOf rest := rfl
        rw [hpairs]
        simp only [List.length_cons, EngineState.mk.injEq]
        refine ⟨by omega, trivial, by simp⟩

lemma pairsOf_length :
    ∀ (users : List (String × Int)), users.length % 2 = 0 →
      (pairsOf users).length = users.length / 2
  | [] => by intro; rfl
  | [x] => by intro h; simp at h
  | x :: y :: rest => by
    intro heven
    simp only [List.length_cons] at heven
    have ih := pairsOf_length rest (by omega)
    simp only [pairsOf, List.length_cons, ih]
    omega

lemma pairsOf_ids :
    ∀ (users : List (String × Int)), users.length % 2 = 0 →
      (pairsOf users).flatMap MatchResult.userIds = users.map Prod.fst
  | [] => by intro; rfl
  | [x] => by intro h; simp at h
  | x :: y :: rest => by
    intro heven
    simp only [List.length_cons] at heven
    have ih := pairsOf_ids rest (by omega)
    simp only [pairsOf, List.flatMap_cons, MatchResult.userIds, List.map_cons,
      ih, List.cons_append, List.nil_append]

/-! ### Claim theorems -/

lemma filter_hasUser_le (results : List MatchResult) (u : String) :
    (results.filter (fun r => r.hasUser u)).length ≤
      List.count u (results.flatMap MatchResult.userIds) := by
  induction results with
  | nil => simp
  | cons r rs ih =>
    simp only [List.flatMap_cons, List.count_append]
    by_cases hu : r.hasUser u = true
    · rw [show List.filter (fun r => r.hasUser u) (r :: rs) =
        r :: List.filter (fun r => r.hasUser u) rs from List.filter_cons_of_pos hu]
      have hmem : u ∈ r.userIds := by
        simp only [MatchResult.hasUser, Bool.or_eq_true, beq_iff_eq] at hu
        simp only [MatchResult.userIds, List.mem_cons, List.not_mem_nil, or_false]
        rcases hu with h | h
        · exact Or.inl h.symm
        · exact Or.inr h.symm
      have hpos : 0 < List.count u r.userIds := List.count_pos_iff.2 hmem
      simp only [List.length_cons]
      omega
    · rw [show List.filter (fun r => r.hasUser u) (r :: rs) =
        List.filter (fun r => r.hasUser u) rs from List.filter_cons_of_neg hu]
      omega

/-- C1: the first AddRequest for a userId with no pending request returns
`{ok := true, error := none}`; a second AddRequest while the first is still
pending returns `{ok := false, error := some "already_enqueued"}` and leaves
pool and results untouched; once the userId has been matched and is no
longer pending, a further AddRequest for it is a fresh insert and succeeds
again. -/
theorem addRequest_admission (tol : Nat → Nat) (s : EngineState) (u : String) (rank : Int) :
    ((∀ q ∈ s.pool, q.userId ≠ u) →
      (addRequest tol s u rank).1 = ⟨true, none⟩)
  ∧ ((∃ q ∈ s.pool, q.userId = u) →
      (addRequest tol s u rank).1 = ⟨false, some "already_enqueued"⟩
      ∧ (addRequest tol s u rank).2.pool = s.pool
      ∧ (addRequest tol s u rank).2.results = s.results)
  ∧ ((∃ r ∈ s.results, r.hasUser u = true) → (∀ q ∈ s.pool, q.userId ≠ u) →
      (addRequest tol s u rank).1 = ⟨true, none⟩) := by
  have hfresh : (∀ q ∈ s.pool, q.userId ≠ u) →
      (addRequest tol s u rank).1 = ⟨true, none⟩ := by
    intro h
    have hany : s.pool.any (fun q => q.userId == u) = false := by
      rw [List.any_eq_false]
      intro q hq
      simp [h q hq]
    rw [addRequest_eq_fresh tol s u rank hany]
  refine ⟨hfresh, ?_, fun _ => hfresh⟩
  intro hex
  obtain ⟨q, hq, hqu⟩ := hex
  have hany : s.pool.any (fun q => q.userId == u) = true := by
    rw [List.any_eq_true]
    exact ⟨q, hq, by simp [hqu]⟩
  rw [addRequest_eq_dup tol s u rank hany]
  exact ⟨rfl, rfl, rfl⟩

/-- Witness for C1 on concrete runs: a fresh insert of "A" succeeds, a
duplicate while "A" is pending is rejected with already_enqueued, and after
"A" and "B" have been matched a further AddRequest for "A" succeeds. -/
theorem addRequest_admission_witness :
    (addRequest defaultTolerance initState "A" 7).1 = ⟨true, none⟩
  ∧ (addRequest defaultTolerance (run defaultTolerance [Step.add "A" 7]) "A" 7).1 =
      ⟨false, some "already_enqueued"⟩
  ∧ (addRequest defaultTolerance
      (run defaultTolerance [Step.add "A" 7, Step.add "B" 7]) "A" 7).1 = ⟨true, none⟩ :=
  ⟨(addRequest_admission defaultTolerance initState "A" 7).1 (by decide),
   ((addRequest_admission defaultTolerance (run defaultTolerance [Step.add "A" 7]) "A" 7).2.1
      (by decide)).1,
   (addRequest_admission defaultTolerance
      (run defaultTolerance [Step.add "A" 7, Step.add "B" 7]) "A" 7).2.2
      (by decide) (by decide)⟩

/-- C2: enqueueing two distinct users A and B with equal rank 1500 into the
fresh engine produces exactly one MatchResult, with delta 0 and users
{A, B}, and the subscriptions of both users receive that same result. -/
theorem exact_pairing_on_exact_rank (tol : Nat → Nat) (hmono : Monotone tol)
    (A B : String) (hne : A ≠ B) :
    ∃ r : MatchResult,
      (run tol [Step.add A 1500, Step.add B 1500]).results = [r]
      ∧ r.delta = 0 ∧ r.userA = A ∧ r.userB = B ∧ r.rankA = 1500 ∧ r.rankB = 1500
      ∧ subscribeEmissions (run tol [Step.add A 1500, Step.add B 1500]) A = [r]
      ∧ subscribeEmissions (run tol [Step.add A 1500, Step.add B 1500]) B = [r] := by
  have hrun := run_pairs tol hmono 2 [(A, 1500), (B, 1500)] (by simp)
    (by simp [hne]) (by simp)
    (by
      intro p hp q hq
      simp only [List.mem_cons, List.not_mem_nil, or_false] at hp hq
      rcases hp with rfl | rfl <;> rcases hq with rfl | rfl <;> simp)
    0 []
  have hstate : run tol [Step.add A 1500, Step.add B 1500] =
      ⟨2, [], [⟨A, 1500, B, 1500, 0⟩]⟩ := by
    simpa [run, initState, mkTrace, pairsOf] using hrun
  refine ⟨⟨A, 1500, B, 1500, 0⟩, ?_, rfl, rfl, rfl, rfl, rfl, ?_, ?_⟩
  · rw [hstate]
  · rw [hstate]
    simp [subscribeEmissions, MatchResult.hasUser, List.find?]
  · rw [hstate]
    simp [subscribeEmissions, MatchResult.hasUser, List.find?]

/-- Witness for C2 at A := "A", B := "B" and the default tolerance. -/
theorem exact_pairing_on_exact_rank_witness :
    ∃ r : MatchResult,
      (run defaultTolerance [Step.add "A" 1500, Step.add "B" 1500]).results = [r]
      ∧ r.delta = 0 ∧ r.userA = "A" ∧ r.userB = "B" ∧ r.rankA = 1500 ∧ r.rankB = 1500
      ∧ subscribeEmissions (run defaultTolerance
          [Step.add "A" 1500, Step.add "B" 1500]) "A" = [r]
      ∧ subscribeEmissions (run defaultTolerance
          [Step.add "A" 1500, Step.add "B" 1500]) "B" = [r] :=
  exact_pairing_on_exact_rank defaultTolerance (fun _ _ h => h) "A" "B" (by decide)

/-- C3: a subscription for a user that has been matched during the run emits
exactly one event — a MatchResult, which by construction carries exactly two
`{userId, userRank}` entries and an integer delta — and that event involves
the subscribed user. -/
theorem subscription_emits_exactly_once (tol : Nat → Nat) (trace : List Step) (u : String)
    (h : ∃ r ∈ (run tol trace).results, r.hasUser u = true) :
    (subscribeEmissions (run tol trace) u).length = 1
  ∧ ∀ e ∈ subscribeEmissions (run tol trace) u, e.hasUser u = true := by
  have hsome : ((run tol trace).results.find? (fun r => r.hasUser u)).isSome = true :=
    List.find?_isSome.2 h
  obtain ⟨r, hr⟩ := Option.isSome_iff_exists.1 hsome
  have hp := List.find?_some hr
  simp only [subscribeEmissions, hr]
  refine ⟨rfl, ?_⟩
  intro e he
  simp only [List.mem_singleton] at he
  subst he
  exact hp

/-- Witness for C3: the matched user "A" of a two-user run has exactly one
emission. -/
theorem subscription_emits_exactly_once_witness :
    (subscribeEmissions (run defaultTolerance
      [Step.add "A" 5, Step.add "B" 5]) "A").length = 1 :=
  (subscription_emits_exactly_once defaultTolerance [Step.add "A" 5, Step.add "B" 5] "A"
    (by decide)).1

/-- C4 counterexample: the spec (section 8) makes a post-match AddRequest
for the same userId a fresh insert, so re-enqueueing both users after their
first match yields a second, distinct MatchResult with the same userId: a
userId can appear in two distinct MatchResults of one execution. -/
theorem double_match_counterexample :
    ∃ r1 ∈ (run defaultTolerance
        [Step.add "A" 0, Step.add "B" 0, Step.add "A" 5, Step.add "B" 5]).results,
    ∃ r2 ∈ (run defaultTolerance
        [Step.add "A" 0, Step.add "B" 0, Step.add "A" 5, Step.add "B" 5]).results,
      r1 ≠ r2 ∧ r1.hasUser "A" = true ∧ r2.hasUser "A" = true := by
  decide

/-- C4 amended: no MatchResult ever pairs a userId with itself; and in any
execution in which each userId is enqueued at most once, no userId appears
in two distinct MatchResults (a userId reappears in a later MatchResult only
after being re-enqueued following its match, which the spec permits). -/
theorem no_self_match_no_double_match (tol : Nat → Nat) (trace : List Step) :
    (∀ r ∈ (run tol trace).results, r.userA ≠ r.userB)
  ∧ ((addsOf trace).Nodup → ∀ u : String,
      ((run tol trace).results.filter (fun r => r.hasUser u)).length ≤ 1) := by
  constructor
  · exact (runFrom_inv tol trace initState (by simp [poolIds, initState])
      (by simp [initState])).2
  · intro hnodup u
    have hcount := runFrom_count tol u trace initState
    have hinit1 : List.count u (poolIds initState) = 0 := rfl
    have hinit2 : List.count u (resultIds initState) = 0 := rfl
    have hadds : List.count u (addsOf trace) ≤ 1 := List.nodup_iff_count_le_one.1 hnodup u
    have hfilter : ((runFrom tol initState trace).results.filter
        (fun r => r.hasUser u)).length ≤
        List.count u (resultIds (runFrom tol initState trace)) :=
      filter_hasUser_le (runFrom tol initState trace).results u
    show ((runFrom tol initState trace).results.filter (fun r => r.hasUser u)).length ≤ 1
    omega

/-- Witness for C4 amended: a two-user single-enqueue run has at most one
result involving "A". -/
theorem no_self_match_no_double_match_witness :
    ((run defaultTolerance [Step.add "A" 0, Step.add "B" 0]).results.filter
      (fun r => r.hasUser "A")).length ≤ 1 :=
  (no_self_match_no_double_match defaultTolerance [Step.add "A" 0, Step.add "B" 0]).2
    (by decide) "A"

/-- C5: every produced MatchResult stores the two matched requests' ranks
and its delta equals their absolute rank difference, a non-negative
integer. -/
theorem delta_is_abs_rank_difference (tol : Nat → Nat) (trace : List Step) :
    ∀ r ∈ (run tol trace).results,
      (r.delta : Int) = |r.rankA - r.rankB| ∧ 0 ≤ (r.delta : Int) := by
  intro r hr
  have h := runFrom_delta tol trace initState (by simp [initState]) r hr
  constructor
  · rw [h, Int.natCast_natAbs]
  · exact Int.natCast_nonneg _

/-- Witness for C5 at ranks 0 and 1 (delta 1). -/
theorem delta_is_abs_rank_difference_witness :
    ((⟨"A", 0, "B", 1, 1⟩ : MatchResult).delta : Int) =
        |(⟨"A", 0, "B", 1, 1⟩ : MatchResult).rankA - (⟨"A", 0, "B", 1, 1⟩ : MatchResult).rankB|
    ∧ 0 ≤ ((⟨"A", 0, "B", 1, 1⟩ : MatchResult).delta : Int) :=
  delta_is_abs_rank_difference defaultTolerance [Step.add "A" 0, Step.add "B" 1]
    ⟨"A", 0, "B", 1, 1⟩ (by decide)

/-- C6: subscribe-after-match delivers: when the state reached by `trace`
holds a MatchResult for `u`, then after arbitrary further engine activity a
subscription for `u` still emits exactly that result, exactly once. -/
theorem subscribe_after_match_delivers (tol : Nat → Nat) (trace more : List Step)
    (u : String) (r : MatchResult)
    (h : (run tol trace).results.find? (fun x => x.hasUser u) = some r) :
    subscribeEmissions (run tol (trace ++ more)) u = [r]
  ∧ r.hasUser u = true := by
  have hsplit : run tol (trace ++ more) = runFrom tol (run tol trace) more := by
    simp [run, runFrom, List.foldl_append]
  obtain ⟨ex, hex⟩ := runFrom_results_append tol more (run tol trace)
  constructor
  · rw [hsplit]
    simp only [subscribeEmissions, hex, List.find?_append, h, Option.or]
  · exact List.find?_some (p := fun x => MatchResult.hasUser x u) h

/-- Witness for C6: "A" is matched in the first two steps; a subscription
evaluated after an unrelated third enqueue still delivers that result. -/
theorem subscribe_after_match_delivers_witness :
    subscribeEmissions (run defaultTolerance
      ([Step.add "A" 5, Step.add "B" 5] ++ [Step.add "C" 9])) "A" = [⟨"A", 5, "B", 5, 0⟩] :=
  (subscribe_after_match_delivers defaultTolerance [Step.add "A" 5, Step.add "B" 5]
    [Step.add "C" 9] "A" ⟨"A", 5, "B", 5, 0⟩ (by decide)).1

/-- C7: the Matcher's pairing criterion: every pair committed by a sweep
satisfies the compatibility predicate; that predicate is literally
`|rankA − rankB| ≤ tolerance (max waitA waitB)`; on a pool of exactly two
pending requests the sweep pairs them if and only if the predicate holds;
delta 0 is accepted at any wait, in particular zero wait; and the default
tolerance is monotonically non-decreasing in wait time. -/
theorem matcher_pairs_iff_within_tolerance (tol : Nat → Nat) (now : Nat)
    (pool : List Request) (a b : Request) :
    (∀ r ∈ (sweep tol now pool).2, ∃ p ∈ pool, ∃ q ∈ pool,
        r = mkMatch p q ∧ compatible tol now p q = true)
  ∧ (compatible tol now a b = true ↔
      deltaOf a b ≤ tol (max (now - a.enqueuedAt) (now - b.enqueuedAt)))
  ∧ (sweep tol now [a, b] =
      if compatible tol now a b = true then ([], [mkMatch a b]) else ([a, b], []))
  ∧ (deltaOf a b = 0 → compatible tol now a b = true)
  ∧ Monotone defaultTolerance := by
  refine ⟨sweepAux_results_spec tol now pool.length pool, ?_,
    sweep_pair tol now a b, ?_, fun _ _ hxy => hxy⟩
  · simp [compatible]
  · intro h
    simp [compatible, h]

/-- Witness for C7: two equal-rank requests are compatible (delta 0 within
zero-wait tolerance). -/
theorem matcher_pairs_iff_within_tolerance_witness :
    compatible defaultTolerance 2 ⟨"A", 5, 1⟩ ⟨"B", 5, 2⟩ = true :=
  (matcher_pairs_iff_within_tolerance defaultTolerance 2 [] ⟨"A", 5, 1⟩ ⟨"B", 5, 2⟩).2.2.2.1
    (by decide)

/-- C8: N AddRequest calls of N distinct users with mutually compatible
ranks (pairwise delta within the zero-wait tolerance), N even, in any order
of the N inserts (the engine serializes concurrent calls, so an interleaving
is an ordering): the engine produces exactly N/2 MatchResults whose user
lists are pairwise disjoint and together cover all N users exactly once, and
the pool ends empty. -/
theorem concurrent_fanin_safety (tol : Nat → Nat) (hmono : Monotone tol)
    (users : List (String × Int))
    (hnodup : (users.map Prod.fst).Nodup)
    (heven : users.length % 2 = 0)
    (hcompat : ∀ p ∈ users, ∀ q ∈ users, (p.2 - q.2).natAbs ≤ tol 0) :
    (run tol (mkTrace users)).results.length = users.length / 2
  ∧ (run tol (mkTrace users)).results.flatMap MatchResult.userIds = users.map Prod.fst
  ∧ (run tol (mkTrace users)).pool = [] := by
  have hrun := run_pairs tol hmono users.length users le_rfl hnodup heven hcompat 0 []
  have hstate : run tol (mkTrace users) = ⟨users.length, [], pairsOf users⟩ := by
    simpa [run, initState] using hrun
  rw [hstate]
  exact ⟨pairsOf_length users heven, pairsOf_ids users heven, rfl⟩

/-- Witness for C8: six users of rank 1000 yield exactly three results. -/
theorem concurrent_fanin_safety_witness :
    (run defaultTolerance (mkTrace [("u1", 1000), ("u2", 1000), ("u3", 1000),
      ("u4", 1000), ("u5", 1000), ("u6", 1000)])).results.length = 3 :=
  (concurrent_fanin_safety defaultTolerance (fun _ _ h => h)
    [("u1", 1000), ("u2", 1000), ("u3", 1000), ("u4", 1000), ("u5", 1000), ("u6", 1000)]
    (by decide) (by decide) (by decide)).1

end QueueOfMatchmaking
